import Mathlib

/-!
Verification of the MCTS engine in `mcts/MCTS.py`.

The Python code mutates a tree of `TreeNode` objects linked by `TreeEdge`
objects, with a pointer field `parent_edge` on every node.  Three views of
that heap are embedded, each keyed to what its theorems need.  `TNode` is
a purely functional rose tree of states and edge statistics in which a
`parent_edge` chain that is wired the way `expand` wires it acts on the
nonempty initial segments of an edge's position (list of child indices
from the root); it carries the statements about `TreeEdge.update` itself
and about `MonteCarloTree.turn`.  `PNode` additionally records every
node's `parent_edge` field (`PEdge`: Python `None`, a persisted-tree edge
at a given position, or an edge object outside the persisted tree), so
that the training iteration `_fit` can be modelled faithfully: its
line-171 test reads the field, and its `update` calls propagate exactly
as far as the fields lead — stopping below opponent-reply nodes, whose
fields the engine never wires.  `Store` is a heap of node and edge
objects addressed by id, used for the pointer-wiring statements of
`TreeNode.expand` and of the opponent-folding line of `_fit`.  The
abstract-method surface of `TreeNode` (`get_available_child_nodes`,
`get_reward`, `node_turn`, `__eq__`) is a `Game` record, the opponent
passed to `MonteCarloTree.fit` is a black-box function,
`np.random.choice` outcomes are modelled as oracle arguments (any child
can be drawn, since softmax weights are strictly positive), and the
unbounded roll-out loop and the pointer-following `update` recursion take
explicit fuel.
-/

/-- Statistics of a `TreeEdge`: `prior`, `value` and `visit_count` as
initialised in `TreeEdge.__init__` and mutated by `TreeEdge.update`. -/
structure EdgeData where
  prior : ℚ
  value : ℚ
  visitCount : ℕ
deriving DecidableEq, Repr

/-- The persisted search tree: a node is its abstract state plus the
ordered list of outgoing edges (`TreeNode.children`), each edge paired
with the subtree it owns (`TreeEdge.child`). -/
inductive TNode (σ : Type) : Type where
  | mk (state : σ) (children : List (EdgeData × TNode σ))

/-- State held by the node (supplied by the concrete `TreeNode` variant). -/
def TNode.state {σ : Type} : TNode σ → σ
  | .mk s _ => s

/-- Outgoing edges of the node (`TreeNode.children`). -/
def TNode.children {σ : Type} : TNode σ → List (EdgeData × TNode σ)
  | .mk _ cs => cs

/-- The abstract-method surface of `TreeNode` that concrete game variants
supply: `get_available_child_nodes` (as states paired with priors),
`get_reward(player)`, the `node_turn` attribute and `__eq__` on states. -/
structure Game (σ π : Type) where
  avail : σ → List (σ × ℚ)
  reward : σ → π → ℚ
  nodeTurn : σ → π
  beq : σ → σ → Bool

/-- `TreeNode.is_finish`: no available child nodes remain. -/
def Game.isFinish {σ π : Type} (g : Game σ π) (s : σ) : Bool :=
  (g.avail s).isEmpty

/-- Replace the element at an index of a list, leaving the list unchanged
when the index is out of range (the functional image of an in-place field
assignment on the i-th child). -/
def listModify {α : Type} (f : α → α) : ℕ → List α → List α
  | _, [] => []
  | 0, a :: as => f a :: as
  | n + 1, a :: as => a :: listModify f n as

/-- Effect of one `TreeEdge.update(reward)` call on the statistics of one
edge: `value += reward`, `visit_count += 1` (lines 26 and 27). -/
def bump (r : ℚ) (e : EdgeData) : EdgeData :=
  ⟨e.prior, e.value + r, e.visitCount + 1⟩

/-- Embedding of `TreeEdge.update(reward)` called on the edge sitting at
position `p` of the tree: the edge itself and, through the recursive call
on `self.parent.parent_edge`, every enclosing edge on the way up to the
root — i.e. every edge at a nonempty position that is an initial segment
of `p` — receives `value += reward; visit_count += 1` with the same,
non-sign-flipped reward. -/
def TNode.updatePath {σ : Type} (t : TNode σ) (p : List ℕ) (r : ℚ) : TNode σ :=
  match t, p with
  | t, [] => t
  | .mk s cs, i :: ps =>
      .mk s (listModify (fun ec => (bump r ec.1, ec.2.updatePath ps r)) i cs)

/-- The edge sitting at a position (list of child indices from the root);
`none` for the empty position or an index out of range. -/
def TNode.edgeAt {σ : Type} (t : TNode σ) (p : List ℕ) : Option EdgeData :=
  match t, p with
  | _, [] => none
  | .mk _ cs, i :: ps =>
      match cs[i]? with
      | none => none
      | some ec =>
          match ps with
          | [] => some ec.1
          | _ :: _ => ec.2.edgeAt ps

/-- First list is an initial segment of the second. -/
def pathPre : List ℕ → List ℕ → Bool
  | [], _ => true
  | _ :: _, [] => false
  | a :: as, b :: bs => a == b && pathPre as bs

/-- Position `q` is one of the edges touched by an update at position `p`:
a nonempty initial segment of `p`. -/
def onPath (p q : List ℕ) : Bool :=
  !q.isEmpty && pathPre q p

/-- A sequence of `update` calls, each given by the position of the edge
it is called on and the reward passed. -/
def applyUpdates {σ : Type} (t : TNode σ) (us : List (List ℕ × ℚ)) : TNode σ :=
  us.foldl (fun t u => t.updatePath u.1 u.2) t

/-- `np.max` over a list of reals (the empty case never reaches it in the
code, since `softmax` is only applied to a node with children). -/
noncomputable def listMax : List ℝ → ℝ
  | [] => 0
  | x :: xs => xs.foldl max x

/-- The intermediate array `e_x = np.exp(x - np.max(x))` of `softmax`. -/
noncomputable def softmaxNum (x : List ℝ) : List ℝ :=
  x.map fun v => Real.exp (v - listMax x)

/-- The `softmax` helper of `MCTS.py` lines 94-98: subtract the maximum,
exponentiate elementwise, normalise by the sum: `e_x / e_x.sum()`. -/
noncomputable def softmax (x : List ℝ) : List ℝ :=
  (softmaxNum x).map fun v => v / (softmaxNum x).sum

/-- `MonteCarloTree.edge_criteria` lines 109-121 on the statistics of one
edge: `exploit_term = value / (1 + visit_count)`; the visit count of the
parent node's incoming edge is `0` when `parent.parent_edge is None`;
`explore_term = c * prior * sqrt(parent_visit_count) / (1 + visit_count)`. -/
noncomputable def edge_criteria (prior value : ℚ) (visitCount : ℕ)
    (parentEdgeCount : Option ℕ) (c : ℝ) : ℝ :=
  let exploit_term := (value : ℝ) / (1 + (visitCount : ℝ))
  let parent_visit_count : ℕ :=
    match parentEdgeCount with
    | none => 0
    | some n => n
  let explore_term :=
    c * (prior : ℝ) * Real.sqrt (parent_visit_count : ℝ) / (1 + (visitCount : ℝ))
  exploit_term + explore_term

/-- The per-child quantity maximised by `MonteCarloTree.turn` line 141:
`c.value / (1 + c.visit_count)`. -/
def avgValue (e : EdgeData) : ℚ :=
  e.value / (1 + (e.visitCount : ℚ))

/-- `np.argmax` on a nonempty list: index of the first occurrence of the
maximum (numpy breaks ties by the earliest index). -/
def argmaxIdx : List ℚ → ℕ
  | [] => 0
  | [_] => 0
  | x :: y :: xs =>
      let j := argmaxIdx (y :: xs)
      if x < (y :: xs).getD j 0 then j + 1 else 0

/-- `np.argmax`, raising on an empty array (line 141 raises when the root
has no children). -/
def argmax? : List ℚ → Option ℕ
  | [] => none
  | x :: xs => some (argmaxIdx (x :: xs))

/-- The tree wrapper: `MonteCarloTree.__init__` stores exactly the root. -/
structure MonteCarloTree (σ : Type) where
  root : TNode σ

/-- `MonteCarloTree.turn` lines 134-144: assert the argument equals the
root (via the abstract `__eq__`, modelled as `beq` on states), take the
arg-max child of `value / (1 + visit_count)`, clear that child's children
list in place, and return the child; `self.root` is not reassigned, so the
result is the tree whose root still is the old root (with the chosen
child's children emptied inside it) together with the returned child. -/
def MonteCarloTree.turn {σ π : Type} (g : Game σ π) (t : MonteCarloTree σ)
    (node : TNode σ) : Option (MonteCarloTree σ × TNode σ) :=
  if g.beq t.root.state node.state then
    match argmax? (t.root.children.map fun ec => avgValue ec.1) with
    | none => none
    | some i =>
        match t.root.children[i]? with
        | none => none
        | some ec =>
            some (⟨TNode.mk t.root.state
                     (listModify (fun ec0 => (ec0.1, TNode.mk ec0.2.state [])) i
                       t.root.children)⟩,
                  TNode.mk ec.2.state [])
  else none

/-- The children list built by `TreeNode.expand` lines 67-71: one edge per
entry of `get_available_child_nodes`, carrying that entry's prior, with
statistics initialised to zero by `TreeEdge.__init__` and the freshly
constructed child node below it. -/
def expandChildren {σ π : Type} (g : Game σ π) (s : σ) : List (EdgeData × TNode σ) :=
  (g.avail s).map fun sp => (⟨sp.2, 0, 0⟩, TNode.mk sp.1 [])

/-- The opponent-folding loop of `MonteCarloTree._fit` lines 178-182: for
every child edge whose child is not finished, the opponent produces a
reply to the child and the child's children are overwritten wholesale with
the single edge `TreeEdge(1, child_node, grand_child_node)`; finished
children are left untouched. -/
def foldChildren {σ π : Type} (g : Game σ π) (opp : σ → TNode σ)
    (cs : List (EdgeData × TNode σ)) : List (EdgeData × TNode σ) :=
  cs.map fun ec =>
    if g.isFinish ec.2.state then ec
    else (ec.1, TNode.mk ec.2.state [(⟨1, 0, 0⟩, opp ec.2.state)])

/-- The `parent_edge` field of a `TreeNode` object, as seen from the
persisted search tree.  `TreeNode.__init__` stores an arbitrary edge
object (or `None`) in this field, and the engine itself assigns it in one
place only, line 70 of `expand`.  `none` is Python `None`; `tree r` is
the edge object of the persisted tree sitting at position `r`; `ext k` is
an edge object that is not part of the persisted tree — for example the
discarded incoming edge kept by a re-rooted root, or an edge that an
opponent-built reply node's constructor received.  Following an `ext`
reference bumps and walks only objects outside the persisted tree, so the
persisted tree is unchanged from that point on; this reading is sound as
long as external chains do not alias back into the persisted tree, which
the engine's own constructions never arrange. -/
inductive PEdge : Type where
  | none : PEdge
  | tree (r : List ℕ) : PEdge
  | ext (k : ℕ) : PEdge
deriving DecidableEq, Repr

/-- The persisted search tree with the `parent_edge` field explicit: a
node is its state, its `parent_edge` field, and its ordered outgoing
edges, each carrying the `TreeEdge` statistics and the subtree below. -/
inductive PNode (σ : Type) : Type where
  | mk (state : σ) (pe : PEdge) (children : List (EdgeData × PNode σ))

/-- State held by the node (supplied by the concrete `TreeNode` variant). -/
def PNode.state {σ : Type} : PNode σ → σ
  | .mk s _ _ => s

/-- The node's `parent_edge` field. -/
def PNode.pe {σ : Type} : PNode σ → PEdge
  | .mk _ e _ => e

/-- Outgoing edges of the node (`TreeNode.children`). -/
def PNode.children {σ : Type} : PNode σ → List (EdgeData × PNode σ)
  | .mk _ _ cs => cs

/-- The edge sitting at a position of the enriched tree. -/
def PNode.edgeAt {σ : Type} (t : PNode σ) (p : List ℕ) : Option EdgeData :=
  match t, p with
  | _, [] => Option.none
  | .mk _ _ cs, i :: ps =>
      match cs[i]? with
      | Option.none => Option.none
      | some ec =>
          match ps with
          | [] => some ec.1
          | _ :: _ => ec.2.edgeAt ps

/-- The node sitting at a position of the enriched tree. -/
def PNode.nodeAt {σ : Type} (t : PNode σ) (p : List ℕ) : Option (PNode σ) :=
  match t, p with
  | t, [] => some t
  | .mk _ _ cs, i :: ps =>
      match cs[i]? with
      | Option.none => Option.none
      | some ec => ec.2.nodeAt ps

/-- Replace the node sitting at a position with another node (the
functional image of mutating that node object in place). -/
def PNode.replaceAt {σ : Type} (t : PNode σ) (p : List ℕ) (r : PNode σ) : PNode σ :=
  match t, p with
  | _, [] => r
  | .mk s e cs, i :: ps =>
      .mk s e (listModify (fun ec => (ec.1, ec.2.replaceAt ps r)) i cs)

/-- Bump the statistics of the single edge sitting at a position: the two
field assignments of `TreeEdge.update` lines 26-27, without the
recursion of lines 28-29. -/
def PNode.bumpAt {σ : Type} (t : PNode σ) (p : List ℕ) (r : ℚ) : PNode σ :=
  match t, p with
  | t, [] => t
  | .mk s e cs, i :: ps =>
      .mk s e (listModify (fun ec =>
        match ps with
        | [] => (bump r ec.1, ec.2)
        | _ :: _ => (ec.1, ec.2.bumpAt ps r)) i cs)

/-- The positions of the persisted-tree edges bumped by one
`TreeEdge.update` call starting at the edge at position `p`, obtained by
following `self.parent.parent_edge` (line 28).  The `parent` field of
every edge of the persisted tree is the node whose children list holds it
— both construction sites, line 69 of `expand` and line 182 of `_fit`,
pass exactly that node — so `e.parent` is the node one step up, at
`p.dropLast`.  The walk stops when that node's `parent_edge` field is
`None` or an object outside the persisted tree; fuel bounds the
recursion, which need not terminate on pathological pointer graphs. -/
def updChain {σ : Type} : ℕ → PNode σ → List ℕ → Option (List (List ℕ))
  | 0, _, _ => Option.none
  | fuel + 1, t, p =>
      match t.nodeAt p.dropLast with
      | Option.none => Option.none
      | some n =>
          match n.pe with
          | PEdge.none => some [p]
          | PEdge.ext _ => some [p]
          | PEdge.tree r2 => (updChain fuel t r2).map (fun ch => p :: ch)

/-- `TreeEdge.update(reward)` lines 20-29 called on the edge at position
`p` of the persisted tree: bump that edge, and — unless the parent node's
`parent_edge` field (line 28) is `None` or holds an object outside the
persisted tree — recurse on the edge that field holds, wherever it sits.
Fuel bounds the recursion; `none` means the call did not complete within
it. -/
def updateObj {σ : Type} : ℕ → PNode σ → List ℕ → ℚ → Option (PNode σ)
  | 0, _, _, _ => Option.none
  | fuel + 1, t, p, r =>
      let t1 := t.bumpAt p r
      match t1.nodeAt p.dropLast with
      | Option.none => Option.none
      | some n =>
          match n.pe with
          | PEdge.none => some t1
          | PEdge.ext _ => some t1
          | PEdge.tree r2 => updateObj fuel t1 r2 r

/-- The selection loop of `MonteCarloTree._fit` lines 163-167 as the
position it reaches: while the current node has children, one child is
drawn from the softmax distribution over `edge_criteria` scores and the
walk descends into it.  Since every softmax weight is strictly positive,
any child can be drawn; the drawn index at each depth is supplied by the
oracle `picks`, reduced modulo the number of children. -/
def PNode.selectWalk {σ : Type} (picks : ℕ → ℕ) (d : ℕ) : PNode σ → List ℕ
  | .mk _ _ [] => []
  | .mk _ _ (c :: cs) =>
      (picks d % (c :: cs).length) ::
        PNode.selectWalk picks (d + 1)
          ((c :: cs).get ⟨picks d % (c :: cs).length,
             Nat.mod_lt _ (Nat.succ_pos _)⟩).2
termination_by t => sizeOf t
decreasing_by
  simp_wf
  have hlt : picks d % (cs.length + 1) < (c :: cs).length :=
    Nat.mod_lt _ (Nat.succ_pos _)
  have hmem : (c :: cs)[picks d % (cs.length + 1)] ∈ c :: cs :=
    List.getElem_mem _
  have h1 := List.sizeOf_lt_of_mem hmem
  have h2 : sizeOf (c :: cs)[picks d % (cs.length + 1)].2 <
      sizeOf (c :: cs)[picks d % (cs.length + 1)] := by
    rcases _hg : (c :: cs)[picks d % (cs.length + 1)] with ⟨e, n⟩
    simp
  have h3 : sizeOf (c :: cs) = 1 + sizeOf c + sizeOf cs := by simp
  omega

/-- The children created by `TreeNode.expand` lines 67-71 below the node
sitting at position `pos` of the persisted tree: the k-th available
action gives an edge with that action's prior and zeroed statistics, and
a fresh child node whose `parent_edge` field is set on line 70 to that
very edge — the edge at position `pos ++ [k]`. -/
def expandChildrenGo {σ : Type} (pos : List ℕ) (k : ℕ) :
    List (σ × ℚ) → List (EdgeData × PNode σ)
  | [] => []
  | sp :: rest =>
      (⟨sp.2, 0, 0⟩, PNode.mk sp.1 (PEdge.tree (pos ++ [k])) []) ::
        expandChildrenGo pos (k + 1) rest

/-- `TreeNode.expand` lines 59-71 on the node sitting at position `pos`
of the persisted tree: fatal (`none`) when the children list is nonempty,
otherwise populate it from the available actions, wiring each fresh
child's `parent_edge` to its new edge; the node's own `parent_edge` is
untouched. -/
def expandNodeP {σ π : Type} (g : Game σ π) (pos : List ℕ) (t : PNode σ) :
    Option (PNode σ) :=
  if t.children.isEmpty then
    some (PNode.mk t.state t.pe (expandChildrenGo pos 0 (g.avail t.state)))
  else Option.none

/-- The opponent-folding loop of `_fit` lines 178-182 on the enriched
model: a non-finished child's children are overwritten wholesale with the
single synthetic edge `TreeEdge(1, child_node, grand_child_node)`; the
reply node comes whole from the opponent, so in particular its
`parent_edge` field is whatever the opponent's construction supplied —
the engine does not set it (the content of C8's correction).  Finished
children are left untouched. -/
def foldChildrenP {σ π : Type} (g : Game σ π) (opp : σ → PNode σ)
    (cs : List (EdgeData × PNode σ)) : List (EdgeData × PNode σ) :=
  cs.map fun ec =>
    if g.isFinish ec.2.state then ec
    else (ec.1, PNode.mk ec.2.state ec.2.pe [(⟨1, 0, 0⟩, opp ec.2.state)])

/-- `TreeNode.expand` as called on the roll-out copy (line 193): the
copy's edges are not part of the persisted tree, so the line-70 wiring of
the copy's fresh children targets objects outside it; the roll-out loop
never reads these fields, it only descends through children. -/
def expandCopy {σ π : Type} (g : Game σ π) (t : PNode σ) : Option (PNode σ) :=
  if t.children.isEmpty then
    some (PNode.mk t.state t.pe
      ((g.avail t.state).map fun sp => (⟨sp.2, 0, 0⟩, PNode.mk sp.1 (PEdge.ext 0) [])))
  else Option.none

/-- The roll-out loop of `MonteCarloTree._fit` lines 189-202, run on the
detached deep copy; it returns the final (finished) state reached, from
which the reward is computed on line 204.  The loop alternates: on the
very first (opponent) iteration it descends into `children[0].child`, on
later opponent iterations it asks the opponent, and on own iterations it
expands the current copy and descends into a uniformly drawn child (the
draw supplied by the oracle `picks`).  Explicit fuel models the fact that
the loop need not terminate; `none` is also returned where the Python
would raise (expanding a node that already has children, or drawing from
an empty children list). -/
def rolloutLoopP {σ π : Type} (g : Game σ π) (opp : σ → PNode σ) (picks : ℕ → ℕ) :
    ℕ → PNode σ → Bool → Bool → ℕ → Option σ
  | 0, n, _, _, _ => if g.isFinish n.state then some n.state else Option.none
  | fuel + 1, n, firstTurn, oppTurn, d =>
      if g.isFinish n.state then some n.state
      else if oppTurn then
        if firstTurn then
          match n.children with
          | [] => Option.none
          | e :: _ => rolloutLoopP g opp picks fuel e.2 false false d
        else rolloutLoopP g opp picks fuel (opp n.state) firstTurn false d
      else
        match expandCopy g n with
        | Option.none => Option.none
        | some n2 =>
            match n2.children with
            | [] => Option.none
            | c :: cs =>
                rolloutLoopP g opp picks fuel
                  ((c :: cs).getD (picks d % (c :: cs).length) c).2
                  firstTurn true (d + 1)

/-- One full training iteration `MonteCarloTree._fit` lines 156-204 in
explicit-state form, with the `parent_edge` fields explicit.  The
selection walk yields a position `p`.  If the node there is finished,
line 171 tests the node's own `parent_edge` FIELD: `None` means no
update; a field holding an edge outside the persisted tree means the
update call mutates only that external object; a field holding the tree
edge at `r` means one `update` call on that edge, which then follows the
pointer chain (`updateObj`).  Otherwise the node is expanded (wiring its
fresh children's `parent_edge`), the opponent's replies are folded in
(leaving reply-node `parent_edge` fields untouched), a child edge `i` is
drawn uniformly (oracle `actPick`), its child is deep copied (value
semantics make the copy implicit), the roll-out runs on the copy, and
line 204 calls `update` once on the selected action edge at position
`p ++ [i]`; that call propagates only as far as the `parent_edge` fields
lead — in particular it stops below an unwired opponent-reply node. -/
def mctsFitP {σ π : Type} (g : Game σ π) (opp : σ → PNode σ) (selPicks : ℕ → ℕ)
    (actPick : ℕ) (rollPicks : ℕ → ℕ) (fuel updFuel : ℕ) (t : PNode σ) :
    Option (PNode σ) :=
  let p := PNode.selectWalk selPicks 0 t
  match t.nodeAt p with
  | Option.none => Option.none
  | some sel =>
      if g.isFinish sel.state then
        match sel.pe with
        | PEdge.none => some t
        | PEdge.ext _ => some t
        | PEdge.tree r =>
            updateObj updFuel t r (g.reward sel.state (g.nodeTurn sel.state))
      else
        match expandNodeP g p sel with
        | Option.none => Option.none
        | some ex =>
            let folded := PNode.mk ex.state ex.pe (foldChildrenP g opp ex.children)
            match folded.children with
            | [] => Option.none
            | c :: cs =>
                let i := actPick % (c :: cs).length
                match rolloutLoopP g opp rollPicks fuel ((c :: cs).getD i c).2
                    true true 0 with
                | Option.none => Option.none
                | some fs =>
                    updateObj updFuel (t.replaceAt p folded) (p ++ [i])
                      (g.reward fs (g.nodeTurn sel.state))

/-- Concrete opponent for the enriched model: a fresh childless reply
node whose constructor left `parent_edge` at `None`. -/
def exPOpp : ℕ → PNode ℕ := fun s => PNode.mk (s + 100) PEdge.none []

/-- Concrete enriched tree: a root (no parent edge) with one expanded
edge to the finished state 2, whose node is wired back to that edge as
`expand` leaves it. -/
def exPTree : PNode ℕ :=
  PNode.mk 0 PEdge.none [(⟨1, 0, 0⟩, PNode.mk 2 (PEdge.tree [0]) [])]

/-- Heap-level image of a `TreeNode` object: its state, its `parent_edge`
field (an edge id, or `none`), and its `children` list of edge ids. -/
structure NodeObj (σ : Type) where
  state : σ
  parentEdge : Option ℕ
  children : List ℕ
deriving DecidableEq, Repr

/-- Heap-level image of a `TreeEdge` object: the statistics plus the
`parent` and `child` node ids set by `TreeEdge.__init__`. -/
structure EdgeObj where
  prior : ℚ
  value : ℚ
  visitCount : ℕ
  parentId : ℕ
  childId : ℕ
deriving DecidableEq, Repr

/-- An object heap: the node and edge objects, addressed by list index. -/
structure Store (σ : Type) where
  nodes : List (NodeObj σ)
  edges : List EdgeObj
deriving DecidableEq, Repr

/-- The node objects allocated by the loop of `TreeNode.expand`: the k-th
available child state, its `parent_edge` set on line 70 to the k-th new
edge, and an empty children list. -/
def mkChildNodes {σ : Type} (e0 : ℕ) : List (σ × ℚ) → List (NodeObj σ)
  | [] => []
  | sp :: rest => ⟨sp.1, some e0, []⟩ :: mkChildNodes (e0 + 1) rest

/-- The edge objects allocated by the loop of `TreeNode.expand` line 69:
`TreeEdge(new_prior, self, new_node)` for the k-th available child. -/
def mkChildEdges {σ : Type} (nid n0 : ℕ) : List (σ × ℚ) → List EdgeObj
  | [] => []
  | sp :: rest => ⟨sp.2, 0, 0, nid, n0⟩ :: mkChildEdges nid (n0 + 1) rest

/-- `TreeNode.expand` lines 59-71 on the object heap: fatal (`none`) when
the node's children list is nonempty, otherwise allocate one edge and one
node per available child, append the edge ids to the node's children. -/
def Store.expand {σ π : Type} (g : Game σ π) (st : Store σ) (nid : ℕ) :
    Option (Store σ) :=
  match st.nodes[nid]? with
  | none => none
  | some nobj =>
      if nobj.children.isEmpty then
        let av := g.avail nobj.state
        let e0 := st.edges.length
        let n0 := st.nodes.length
        some ⟨(listModify
                 (fun n => ⟨n.state, n.parentEdge, (List.range av.length).map (e0 + ·)⟩)
                 nid st.nodes) ++ mkChildNodes e0 av,
              st.edges ++ mkChildEdges nid n0 av⟩
      else none

/-- The body of the opponent-folding loop of `MonteCarloTree._fit` lines
178-182 on the object heap, for one child node `cid`.  When the child is
not finished, the opponent builds a reply node (modelled as the reply
state together with whatever `parent_edge` field the opponent's own node
construction left on it), the engine allocates it and the synthetic edge
`TreeEdge(1, child_node, grand_child_node)`, and overwrites the child's
children with exactly that edge.  Note the engine assigns no
`parent_edge` on the reply node (there is no counterpart of line 70
here). -/
def Store.foldChild {σ π : Type} (g : Game σ π) (opp : σ → σ × Option ℕ)
    (st : Store σ) (cid : ℕ) : Store σ :=
  match st.nodes[cid]? with
  | none => st
  | some c =>
      if g.isFinish c.state then st
      else
        let rep := opp c.state
        let eid := st.edges.length
        ⟨(listModify (fun n => ⟨n.state, n.parentEdge, [eid]⟩) cid st.nodes)
           ++ [⟨rep.1, rep.2, []⟩],
         st.edges ++ [⟨1, 0, 0, cid, st.nodes.length⟩]⟩

/-- Concrete game on natural-number states used by the witnesses: state 0
offers two moves (to the non-finished state 1 with prior 1, and to the
finished state 2 with prior 2), state 1 offers one move to state 3, and
all other states are finished.  Rewards are 1 throughout and the
turn-owner is constantly player 0. -/
def exGame : Game ℕ ℕ :=
  ⟨fun s => if s = 0 then [(1, 1), (2, 2)] else if s = 1 then [(3, 1)] else [],
   fun _ _ => 1, fun _ => 0, fun a b => a == b⟩

/-- Concrete two-edge chain used by the update witnesses. -/
def exTree : TNode ℕ :=
  .mk 0 [(⟨1, 0, 0⟩, .mk 1 [(⟨1, 0, 0⟩, .mk 2 [])])]

/-- Concrete update sequence used by the conservation witness: one call on
the edge at position 0 and one on the edge below it. -/
def exUpdates : List (List ℕ × ℚ) :=
  [([0], 2), ([0, 0], 3)]

/-- Concrete opponent returning a fresh childless reply node. -/
def exOpp : ℕ → TNode ℕ := fun s => .mk (s + 100) []

/-- Concrete tree whose root has three children with accumulated values
2, 9, 5 and no visits, for the move-commitment witnesses. -/
def exTurnTree : MonteCarloTree ℕ :=
  ⟨.mk 0 [(⟨1, 2, 0⟩, .mk 1 []), (⟨1, 9, 0⟩, .mk 2 []), (⟨1, 5, 0⟩, .mk 3 [])]⟩

/-- Concrete one-node heap whose single node is unexpanded and sits in the
non-finished state 0. -/
def exStore : Store ℕ :=
  ⟨[⟨0, none, []⟩], []⟩

/-- Concrete one-node heap whose single node sits in the non-finished
state 1, used for the opponent-folding counterexample. -/
def exStoreFold : Store ℕ :=
  ⟨[⟨1, none, []⟩], []⟩

/-- Concrete heap-level opponent: reply state `s + 100`, and the reply
node object's `parent_edge` field left at `none` by its constructor. -/
def exOppStore : ℕ → ℕ × Option ℕ := fun s => (s + 100, none)

theorem listModify_get_eq {α : Type} (f : α → α) (n : ℕ) (l : List α) :
    (listModify f n l)[n]? = l[n]?.map f := by
  induction l generalizing n with
  | nil => cases n <;> simp [listModify]
  | cons a as ih => cases n <;> simp [listModify, ih]

theorem listModify_get_ne {α : Type} (f : α → α) {n m : ℕ} (l : List α)
    (h : n ≠ m) : (listModify f n l)[m]? = l[m]? := by
  induction l generalizing n m with
  | nil => cases n <;> simp [listModify]
  | cons a as ih =>
    cases n with
    | zero =>
      cases m with
      | zero => exact absurd rfl h
      | succ m => simp [listModify]
    | succ n =>
      cases m with
      | zero => simp [listModify]
      | succ m => simpa [listModify] using ih (by omega)

/-- Characterisation of one `update` call: the statistics of the edge at
position `q` are bumped exactly when `q` is a nonempty initial segment of
the updated position `p`, and no other edge changes. -/
theorem edgeAt_updatePath {σ : Type} (t : TNode σ) (p q : List ℕ) (r : ℚ) :
    (t.updatePath p r).edgeAt q =
      if onPath p q then (t.edgeAt q).map (bump r) else t.edgeAt q := by
  induction q generalizing p t with
  | nil =>
    cases t with
    | mk s cs => cases p <;> simp [TNode.updatePath, TNode.edgeAt, onPath]
  | cons j q ih =>
    cases p with
    | nil => simp [TNode.updatePath, onPath, pathPre]
    | cons i ps =>
      cases t with
      | mk s cs =>
        by_cases hij : i = j
        · subst hij
          simp only [TNode.updatePath, TNode.edgeAt]
          rw [listModify_get_eq]
          cases hcs : cs[i]? with
          | none =>
            cases q <;> simp [onPath, pathPre]
          | some ec =>
            cases q with
            | nil =>
              simp [onPath, pathPre]
            | cons j' q' =>
              have honp : onPath (i :: ps) (i :: j' :: q') = onPath ps (j' :: q') := by
                simp [onPath, pathPre]
              rw [honp]
              simpa using ih ec.2 ps
        · simp only [TNode.updatePath, TNode.edgeAt]
          rw [listModify_get_ne _ cs hij]
          have honp : onPath (i :: ps) (j :: q) = false := by
            simp [onPath, pathPre]
            omega
          rw [honp]
          simp

/-- Accumulated effect of a sequence of `update` calls on the edge at
position `q`: its value grows by the sum of the rewards of exactly those
calls whose position extends `q`, and its visit count by their number. -/
theorem edgeAt_applyUpdates {σ : Type} (us : List (List ℕ × ℚ)) (t : TNode σ)
    (q : List ℕ) :
    (applyUpdates t us).edgeAt q =
      (t.edgeAt q).map (fun e =>
        ⟨e.prior,
         e.value + ((us.filter fun u => onPath u.1 q).map fun u => u.2).sum,
         e.visitCount + (us.filter fun u => onPath u.1 q).length⟩) := by
  induction us generalizing t with
  | nil =>
    cases h : t.edgeAt q <;> simp [applyUpdates, h]
  | cons u us ih =>
    have hstep : applyUpdates t (u :: us) = applyUpdates (t.updatePath u.1 u.2) us := rfl
    rw [hstep, ih, edgeAt_updatePath]
    by_cases hop : onPath u.1 q
    · rw [if_pos hop]
      cases h : t.edgeAt q with
      | none => simp [h, List.filter_cons, hop]
      | some e =>
        simp only [h, Option.map_some', List.filter_cons, hop, if_true,
          List.map_cons, List.sum_cons, List.length_cons, bump,
          Option.some.injEq, EdgeData.mk.injEq, true_and]
        refine ⟨by ring, by omega⟩
    · rw [if_neg hop]
      have : onPath u.1 q = false := by simpa using hop
      simp [List.filter_cons, this]

theorem listModify_length {α : Type} (f : α → α) (n : ℕ) (l : List α) :
    (listModify f n l).length = l.length := by
  induction l generalizing n with
  | nil => cases n <;> rfl
  | cons a as ih => cases n <;> simp [listModify, ih]

theorem argmaxIdx_spec (l : List ℚ) (hl : l ≠ []) :
    argmaxIdx l < l.length ∧
      (∀ j, j < l.length → l.getD j 0 ≤ l.getD (argmaxIdx l) 0) ∧
      (∀ j, j < argmaxIdx l → l.getD j 0 < l.getD (argmaxIdx l) 0) := by
  induction l with
  | nil => exact absurd rfl hl
  | cons x xs ih =>
    cases xs with
    | nil =>
      refine ⟨by simp [argmaxIdx], ?_, ?_⟩
      · intro j hj
        have hj0 : j = 0 := by simp at hj; omega
        subst hj0
        simp [argmaxIdx]
      · intro j hj
        simp [argmaxIdx] at hj
    | cons y ys =>
      obtain ⟨ih1, ih2, ih3⟩ := ih (by simp)
      have hunfold : argmaxIdx (x :: y :: ys) =
          if x < (y :: ys).getD (argmaxIdx (y :: ys)) 0 then
            argmaxIdx (y :: ys) + 1
          else 0 := rfl
      by_cases hc : x < (y :: ys).getD (argmaxIdx (y :: ys)) 0
      · rw [hunfold, if_pos hc]
        refine ⟨?_, ?_, ?_⟩
        · simp only [List.length_cons] at ih1 ⊢
          omega
        · intro j hj
          cases j with
          | zero =>
            simp only [List.getD_cons_zero, List.getD_cons_succ]
            exact le_of_lt hc
          | succ j =>
            simp only [List.getD_cons_succ]
            refine ih2 j ?_
            simp only [List.length_cons] at hj ⊢
            omega
        · intro j hj
          cases j with
          | zero =>
            simp only [List.getD_cons_zero, List.getD_cons_succ]
            exact hc
          | succ j =>
            simp only [List.getD_cons_succ]
            exact ih3 j (by omega)
      · rw [hunfold, if_neg hc]
        push_neg at hc
        refine ⟨by simp, ?_, ?_⟩
        · intro j hj
          cases j with
          | zero => simp only [List.getD_cons_zero, le_refl]
          | succ j =>
            simp only [List.getD_cons_succ, List.getD_cons_zero]
            refine le_trans (ih2 j ?_) hc
            simp only [List.length_cons] at hj ⊢
            omega
        · intro j hj
          omega

/-- C3: `MonteCarloTree.turn` fails fatally when its argument is not
equal to the tree's current root; otherwise it deterministically selects
the child edge maximising `value / (1 + visit_count)`, breaking ties by
the earliest index, empties that child node's children list, and returns
that child node, while the tree's own root stays the (updated-in-place)
original root object rather than being reassigned. -/
theorem turn_commit {σ π : Type} (g : Game σ π) (t : MonteCarloTree σ)
    (node other : TNode σ) (scores : List ℚ) (i : ℕ)
    (hbeq : g.beq t.root.state node.state = true)
    (hno : g.beq t.root.state other.state = false)
    (hch : t.root.children ≠ [])
    (hs : scores = t.root.children.map fun ec => avgValue ec.1)
    (hi : i = argmaxIdx scores) :
    MonteCarloTree.turn g t other = none
    ∧ i < t.root.children.length
    ∧ (∀ j, j < t.root.children.length → scores.getD j 0 ≤ scores.getD i 0)
    ∧ (∀ j, j < i → scores.getD j 0 < scores.getD i 0)
    ∧ ∀ ec, t.root.children[i]? = some ec →
        MonteCarloTree.turn g t node =
          some (⟨TNode.mk t.root.state
                  (listModify (fun ec0 => (ec0.1, TNode.mk ec0.2.state [])) i
                    t.root.children)⟩,
                TNode.mk ec.2.state []) := by
  have hsne : scores ≠ [] := by
    rw [hs]
    simpa using hch
  obtain ⟨ha1, ha2, ha3⟩ := argmaxIdx_spec scores hsne
  have hlen : scores.length = t.root.children.length := by
    rw [hs]; simp
  subst hi
  refine ⟨?_, ?_, ?_, ?_, ?_⟩
  · simp [MonteCarloTree.turn, hno]
  · omega
  · intro j hj
    exact ha2 j (by omega)
  · intro j hj
    exact ha3 j hj
  · intro ec hec
    have hargmax : argmax? (t.root.children.map fun ec => avgValue ec.1) =
        some (argmaxIdx scores) := by
      rw [hs]
      cases hsc : t.root.children.map fun ec => avgValue ec.1 with
      | nil => rw [hs, hsc] at hsne; exact absurd rfl hsne
      | cons a as => simp [argmax?]
    simp [MonteCarloTree.turn, hbeq, hargmax, hec]

/-- C3 witness: on a root with child values 2, 9, 5 (all unvisited) the
second child is selected, emptied and returned. -/
theorem turn_commit_witness :
    MonteCarloTree.turn exGame exTurnTree (TNode.mk 99 []) = none
    ∧ 1 < exTurnTree.root.children.length
    ∧ (∀ j, j < exTurnTree.root.children.length →
        ([2, 9, 5] : List ℚ).getD j 0 ≤ ([2, 9, 5] : List ℚ).getD 1 0)
    ∧ (∀ j, j < 1 → ([2, 9, 5] : List ℚ).getD j 0 < ([2, 9, 5] : List ℚ).getD 1 0)
    ∧ ∀ ec, exTurnTree.root.children[1]? = some ec →
        MonteCarloTree.turn exGame exTurnTree (TNode.mk 0 []) =
          some (⟨TNode.mk exTurnTree.root.state
                  (listModify (fun ec0 => (ec0.1, TNode.mk ec0.2.state [])) 1
                    exTurnTree.root.children)⟩,
                TNode.mk ec.2.state []) :=
  turn_commit exGame exTurnTree (TNode.mk 0 []) (TNode.mk 99 []) [2, 9, 5] 1
    (by decide) (by decide)
    (by simp [exTurnTree, TNode.children])
    (by simp [exTurnTree, TNode.children, avgValue])
    (by decide)

/-- C10: `MonteCarloTree.turn` called with the matching root while the
root has no children returns no node (the arg-max over zero children has
no defined result), and success of `turn` requires the root to have at
least one child edge. -/
theorem turn_childless {σ π : Type} (g : Game σ π) (t : MonteCarloTree σ)
    (node : TNode σ) (h : t.root.children = []) :
    MonteCarloTree.turn g t node = none
    ∧ ∀ (t2 : MonteCarloTree σ) (res : MonteCarloTree σ × TNode σ),
        MonteCarloTree.turn g t2 node = some res → t2.root.children ≠ [] := by
  constructor
  · by_cases hb : g.beq t.root.state node.state
    · simp [MonteCarloTree.turn, hb, h, argmax?]
    · simp [MonteCarloTree.turn, hb]
  · intro t2 res hres hemp
    by_cases hb : g.beq t2.root.state node.state
    · rw [MonteCarloTree.turn] at hres
      simp [hb, hemp, argmax?] at hres
    · simp [MonteCarloTree.turn, hb] at hres

/-- C10 witness: a childless root with a matching commit argument. -/
theorem turn_childless_witness :
    MonteCarloTree.turn exGame ⟨TNode.mk 5 []⟩ (TNode.mk 5 []) = none
    ∧ ∀ (t2 : MonteCarloTree ℕ) (res : MonteCarloTree ℕ × TNode ℕ),
        MonteCarloTree.turn exGame t2 (TNode.mk 5 []) = some res →
          t2.root.children ≠ [] :=
  turn_childless exGame ⟨TNode.mk 5 []⟩ (TNode.mk 5 []) rfl

/-- C1: `update(reward)` adds the reward to the edge's accumulated value,
increments its visit count by one, and recursively applies the identical,
non-sign-flipped update to the enclosing edge whenever the parent node
has one; consequently a fresh edge that is reached by a sequence of
update calls ends with visit count equal to the number of those calls and
value equal to the sum of their rewards. -/
theorem update_conservation {σ : Type} (t : TNode σ) (us : List (List ℕ × ℚ))
    (p q : List ℕ) (r : ℚ) (e : EdgeData)
    (hq : t.edgeAt q = some e) (hv : e.value = 0) (hn : e.visitCount = 0) :
    ((t.updatePath p r).edgeAt q =
        if onPath p q then some (bump r e) else some e)
    ∧ (applyUpdates t us).edgeAt q =
        some ⟨e.prior,
              ((us.filter fun u => onPath u.1 q).map fun u => u.2).sum,
              (us.filter fun u => onPath u.1 q).length⟩ := by
  constructor
  · rw [edgeAt_updatePath, hq]
    by_cases hop : onPath p q <;> simp [hop]
  · rw [edgeAt_applyUpdates, hq]
    simp [hv, hn]

/-- C1 witness: on a two-edge chain, one update below the first edge
bumps it, and the two recorded update calls (one on it, one below it)
leave it with visit count 2 and value 2 + 3. -/
theorem update_conservation_witness :
    ((exTree.updatePath [0, 0] 5).edgeAt [0] =
        if onPath [0, 0] [0] then some (bump 5 ⟨1, 0, 0⟩) else some ⟨1, 0, 0⟩)
    ∧ (applyUpdates exTree exUpdates).edgeAt [0] =
        some ⟨(1 : ℚ),
              ((exUpdates.filter fun u => onPath u.1 [0]).map fun u => u.2).sum,
              (exUpdates.filter fun u => onPath u.1 [0]).length⟩ :=
  update_conservation exTree exUpdates [0, 0] [0] 5 ⟨1, 0, 0⟩ rfl rfl rfl

/-- C2: the selection score of an edge with prior `p`, accumulated value
`v`, visit count `n` and exploration constant `c` equals
`v / (1 + n) + c * p * sqrt(parent_visits) / (1 + n)`, where
`parent_visits` is the visit count of the edge leading into the edge's
parent node, or 0 when that parent has no parent edge. -/
theorem edge_criteria_spec (p v : ℚ) (n : ℕ) (pe : Option ℕ) (c : ℝ) :
    edge_criteria p v n pe c =
      (v : ℝ) / (1 + (n : ℝ))
        + c * (p : ℝ) * Real.sqrt ((pe.getD 0 : ℕ) : ℝ) / (1 + (n : ℝ)) := by
  cases pe <;> simp [edge_criteria]

theorem list_sum_div (l : List ℝ) (s : ℝ) :
    (l.map fun v => v / s).sum = l.sum / s := by
  induction l with
  | nil => simp
  | cons x xs ih => simp [ih, add_div]

/-- C9: for every nonempty score list, the softmax of the selection walk
is a probability vector: one entry per child, all entries strictly
positive, summing to one — no child gets probability zero. -/
theorem softmax_spec (x : List ℝ) (hx : x ≠ []) :
    (softmax x).length = x.length
    ∧ (softmax x).sum = 1
    ∧ ∀ v ∈ softmax x, 0 < v := by
  have hex : softmaxNum x ≠ [] := by simp [softmaxNum, hx]
  have hpos : ∀ a ∈ softmaxNum x, 0 < a := by
    intro a ha
    simp only [softmaxNum, List.mem_map] at ha
    obtain ⟨v, _, rfl⟩ := ha
    exact Real.exp_pos _
  have hsum : 0 < (softmaxNum x).sum := List.sum_pos _ hpos hex
  refine ⟨by simp [softmax, softmaxNum], ?_, ?_⟩
  · simp only [softmax]
    rw [list_sum_div]
    exact div_self (ne_of_gt hsum)
  · intro v hv
    simp only [softmax, List.mem_map] at hv
    obtain ⟨w, hw, rfl⟩ := hv
    exact div_pos (hpos w hw) hsum

/-- C9 witness: the singleton score list. -/
theorem softmax_spec_witness :
    (([0] : List ℝ) ≠ [])
    ∧ ((softmax [0]).length = ([0] : List ℝ).length
        ∧ (softmax [0]).sum = 1 ∧ ∀ v ∈ softmax [0], 0 < v) :=
  ⟨by simp, softmax_spec [0] (by simp)⟩

theorem mkChildNodes_length {σ : Type} (e0 : ℕ) (l : List (σ × ℚ)) :
    (mkChildNodes e0 l).length = l.length := by
  induction l generalizing e0 with
  | nil => rfl
  | cons sp rest ih => simp [mkChildNodes, ih]

theorem mkChildEdges_length {σ : Type} (nid n0 : ℕ) (l : List (σ × ℚ)) :
    (mkChildEdges nid n0 l).length = l.length := by
  induction l generalizing n0 with
  | nil => rfl
  | cons sp rest ih => simp [mkChildEdges, ih]

theorem mkChildNodes_get {σ : Type} (e0 k : ℕ) (l : List (σ × ℚ)) :
    (mkChildNodes e0 l)[k]? = l[k]?.map fun sp => ⟨sp.1, some (e0 + k), []⟩ := by
  induction l generalizing e0 k with
  | nil => simp [mkChildNodes]
  | cons sp rest ih =>
    cases k with
    | zero => simp [mkChildNodes]
    | succ k =>
      simp only [mkChildNodes, List.getElem?_cons_succ]
      rw [ih]
      have harith : e0 + 1 + k = e0 + (k + 1) := by omega
      rw [harith]

theorem mkChildEdges_get {σ : Type} (nid n0 k : ℕ) (l : List (σ × ℚ)) :
    (mkChildEdges nid n0 l)[k]? = l[k]?.map fun sp => ⟨sp.2, 0, 0, nid, n0 + k⟩ := by
  induction l generalizing n0 k with
  | nil => simp [mkChildEdges]
  | cons sp rest ih =>
    cases k with
    | zero => simp [mkChildEdges]
    | succ k =>
      simp only [mkChildEdges, List.getElem?_cons_succ]
      rw [ih]
      have harith : n0 + 1 + k = n0 + (k + 1) := by omega
      rw [harith]

/-- Successful `Store.expand` written out: the expanded node gets the new
edge ids as children, the fresh nodes and edges are appended. -/
theorem store_expand_eq {σ π : Type} (g : Game σ π) (st : Store σ) (nid : ℕ)
    (nobj : NodeObj σ) (hn : st.nodes[nid]? = some nobj)
    (hc : nobj.children = []) :
    Store.expand g st nid =
      some ⟨(listModify
               (fun n => ⟨n.state, n.parentEdge,
                 (List.range (g.avail nobj.state).length).map (st.edges.length + ·)⟩)
               nid st.nodes) ++ mkChildNodes st.edges.length (g.avail nobj.state),
            st.edges ++ mkChildEdges nid st.nodes.length (g.avail nobj.state)⟩ := by
  simp only [Store.expand]
  rw [hn]
  simp [hc]

/-- C6: calling `expand` on a node whose children list is nonempty is
rejected by the assertion (no new heap is produced, so the children list
is unchanged); on a node with an empty children list it creates one edge
per available action carrying that action's prior, with the edge's parent
set to the node, its child set to the fresh node, and the fresh node's
parent-edge reference set to the created edge. -/
theorem store_expand_spec {σ π : Type} (g : Game σ π) (st : Store σ) (nid : ℕ)
    (nobj : NodeObj σ) (hn : st.nodes[nid]? = some nobj) :
    (nobj.children ≠ [] → Store.expand g st nid = none)
    ∧ (nobj.children = [] →
        ∀ k sk pk, (g.avail nobj.state)[k]? = some (sk, pk) →
          ∃ st2, Store.expand g st nid = some st2
            ∧ st2.edges[st.edges.length + k]? =
                some ⟨pk, 0, 0, nid, st.nodes.length + k⟩
            ∧ st2.nodes[st.nodes.length + k]? =
                some ⟨sk, some (st.edges.length + k), []⟩
            ∧ st2.nodes[nid]? =
                some ⟨nobj.state, nobj.parentEdge,
                  (List.range (g.avail nobj.state).length).map (st.edges.length + ·)⟩) := by
  constructor
  · intro hne
    simp only [Store.expand]
    rw [hn]
    have : nobj.children.isEmpty = false := by
      cases hcc : nobj.children with
      | nil => exact absurd hcc hne
      | cons a as => rfl
    simp [this]
  · intro hc k sk pk hk
    refine ⟨_, store_expand_eq g st nid nobj hn hc, ?_, ?_, ?_⟩
    · rw [List.getElem?_append_right (by omega)]
      have : st.edges.length + k - st.edges.length = k := by omega
      rw [this, mkChildEdges_get, hk]
      rfl
    · have hlm : (listModify
          (fun n => ⟨n.state, n.parentEdge,
            (List.range (g.avail nobj.state).length).map (st.edges.length + ·)⟩)
          nid st.nodes).length = st.nodes.length := listModify_length _ _ _
      rw [List.getElem?_append_right (by omega)]
      rw [hlm]
      have : st.nodes.length + k - st.nodes.length = k := by omega
      rw [this, mkChildNodes_get, hk]
      rfl
    · have hnl : nid < st.nodes.length := by
        by_contra hge
        rw [List.getElem?_eq_none (by omega)] at hn
        exact Option.noConfusion hn
      have hlm : (listModify
          (fun n => ⟨n.state, n.parentEdge,
            (List.range (g.avail nobj.state).length).map (st.edges.length + ·)⟩)
          nid st.nodes).length = st.nodes.length := listModify_length _ _ _
      rw [List.getElem?_append, if_pos (by omega : nid < (listModify
          (fun n => ⟨n.state, n.parentEdge,
            (List.range (g.avail nobj.state).length).map (st.edges.length + ·)⟩)
          nid st.nodes).length)]
      rw [listModify_get_eq, hn]
      rfl

/-- C6 witness: expanding the unexpanded heap node 0 of the example store
allocates edge 0 from node 0 to the fresh node 1 with prior 1, and wires
node 1's parent edge back to edge 0. -/
theorem store_expand_spec_witness :
    (((⟨0, none, []⟩ : NodeObj ℕ).children ≠ []) →
        Store.expand exGame exStore 0 = none)
    ∧ ((⟨0, none, []⟩ : NodeObj ℕ).children = [] →
        ∀ k sk pk, (exGame.avail (⟨0, none, []⟩ : NodeObj ℕ).state)[k]? = some (sk, pk) →
          ∃ st2, Store.expand exGame exStore 0 = some st2
            ∧ st2.edges[exStore.edges.length + k]? =
                some ⟨pk, 0, 0, 0, exStore.nodes.length + k⟩
            ∧ st2.nodes[exStore.nodes.length + k]? =
                some ⟨sk, some (exStore.edges.length + k), []⟩
            ∧ st2.nodes[0]? =
                some ⟨(⟨0, none, []⟩ : NodeObj ℕ).state,
                  (⟨0, none, []⟩ : NodeObj ℕ).parentEdge,
                  (List.range (exGame.avail (⟨0, none, []⟩ : NodeObj ℕ).state).length).map
                    (exStore.edges.length + ·)⟩) :=
  store_expand_spec exGame exStore 0 ⟨0, none, []⟩ rfl

/-- The opponent-folding step written out for a non-finished child: the
child's children become exactly the new synthetic edge id, the reply node
is appended carrying the opponent-supplied parent-edge field, and the
synthetic edge `TreeEdge(1, child, reply)` is appended. -/
theorem store_foldChild_eq {σ π : Type} (g : Game σ π) (opp : σ → σ × Option ℕ)
    (st : Store σ) (cid : ℕ) (c : NodeObj σ)
    (hc : st.nodes[cid]? = some c) (hnf : g.isFinish c.state = false) :
    Store.foldChild g opp st cid =
      ⟨(listModify (fun n => ⟨n.state, n.parentEdge, [st.edges.length]⟩) cid st.nodes)
         ++ [⟨(opp c.state).1, (opp c.state).2, []⟩],
       st.edges ++ [⟨1, 0, 0, cid, st.nodes.length⟩]⟩ := by
  simp only [Store.foldChild]
  rw [hc]
  simp [hnf]

/-- C8 counterexample: folding the opponent reply below the (unexpanded,
non-finished) heap node 0 creates edge 0 whose child is the fresh node 1,
yet node 1's parent-edge reference is `none`, not that created edge. -/
theorem fold_parent_edge_counterexample :
    (Store.foldChild exGame exOppStore exStoreFold 0).edges[0]? =
        some ⟨1, 0, 0, 0, 1⟩
    ∧ (Store.foldChild exGame exOppStore exStoreFold 0).nodes[1]?.map
        NodeObj.parentEdge ≠ some (some 0) := by
  constructor
  · decide
  · decide

/-- C8 (amended): after `expand` creates an edge, the fresh child node's
parent-edge reference equals the created edge; after opponent folding
creates its synthetic edge, the folded child's children list becomes
exactly that edge, but the reply node's parent-edge reference is whatever
the opponent's own construction supplied — the engine does not set it. -/
theorem parent_edge_wiring {σ π : Type} (g : Game σ π) (st : Store σ)
    (nid cid : ℕ) (nobj c : NodeObj σ) (k : ℕ) (sk : σ) (pk : ℚ)
    (st2 : Store σ) (opp : σ → σ × Option ℕ)
    (hn : st.nodes[nid]? = some nobj) (hc : nobj.children = [])
    (hk : (g.avail nobj.state)[k]? = some (sk, pk))
    (hex : Store.expand g st nid = some st2)
    (hcf : st.nodes[cid]? = some c) (hnf : g.isFinish c.state = false) :
    st2.nodes[st.nodes.length + k]? = some ⟨sk, some (st.edges.length + k), []⟩
    ∧ (Store.foldChild g opp st cid).edges[st.edges.length]? =
        some ⟨1, 0, 0, cid, st.nodes.length⟩
    ∧ (Store.foldChild g opp st cid).nodes[st.nodes.length]? =
        some ⟨(opp c.state).1, (opp c.state).2, []⟩
    ∧ (Store.foldChild g opp st cid).nodes[cid]? =
        some ⟨c.state, c.parentEdge, [st.edges.length]⟩ := by
  rw [store_expand_eq g st nid nobj hn hc] at hex
  cases hex
  have hcid : cid < st.nodes.length := by
    by_contra hge
    rw [List.getElem?_eq_none (by omega)] at hcf
    exact Option.noConfusion hcf
  refine ⟨?_, ?_, ?_, ?_⟩
  · have hlm : (listModify
        (fun n => ⟨n.state, n.parentEdge,
          (List.range (g.avail nobj.state).length).map (st.edges.length + ·)⟩)
        nid st.nodes).length = st.nodes.length := listModify_length _ _ _
    rw [List.getElem?_append_right (by omega)]
    rw [hlm]
    have harith : st.nodes.length + k - st.nodes.length = k := by omega
    rw [harith, mkChildNodes_get, hk]
    rfl
  · rw [store_foldChild_eq g opp st cid c hcf hnf]
    rw [List.getElem?_append_right (by omega)]
    have harith : st.edges.length - st.edges.length = 0 := by omega
    rw [harith]
    rfl
  · rw [store_foldChild_eq g opp st cid c hcf hnf]
    have hlm : (listModify (fun n => ⟨n.state, n.parentEdge, [st.edges.length]⟩)
        cid st.nodes).length = st.nodes.length := listModify_length _ _ _
    rw [List.getElem?_append_right (by omega)]
    rw [hlm]
    have harith : st.nodes.length - st.nodes.length = 0 := by omega
    rw [harith]
    rfl
  · rw [store_foldChild_eq g opp st cid c hcf hnf]
    have hlm : (listModify (fun n => ⟨n.state, n.parentEdge, [st.edges.length]⟩)
        cid st.nodes).length = st.nodes.length := listModify_length _ _ _
    rw [List.getElem?_append, if_pos (by omega : cid < (listModify
        (fun n => ⟨n.state, n.parentEdge, [st.edges.length]⟩) cid st.nodes).length)]
    rw [listModify_get_eq, hcf]
    rfl

/-- C8 witness: expanding and folding below the one-node heap in state 1. -/
theorem parent_edge_wiring_witness :
    (⟨[⟨1, none, [0]⟩, ⟨3, some 0, []⟩], [⟨1, 0, 0, 0, 1⟩]⟩ : Store ℕ).nodes[exStoreFold.nodes.length + 0]? =
        some ⟨3, some (exStoreFold.edges.length + 0), []⟩
    ∧ (Store.foldChild exGame exOppStore exStoreFold 0).edges[exStoreFold.edges.length]? =
        some ⟨1, 0, 0, 0, exStoreFold.nodes.length⟩
    ∧ (Store.foldChild exGame exOppStore exStoreFold 0).nodes[exStoreFold.nodes.length]? =
        some ⟨(exOppStore (⟨1, none, []⟩ : NodeObj ℕ).state).1,
              (exOppStore (⟨1, none, []⟩ : NodeObj ℕ).state).2, []⟩
    ∧ (Store.foldChild exGame exOppStore exStoreFold 0).nodes[0]? =
        some ⟨(⟨1, none, []⟩ : NodeObj ℕ).state, (⟨1, none, []⟩ : NodeObj ℕ).parentEdge,
              [exStoreFold.edges.length]⟩ :=
  parent_edge_wiring exGame exStoreFold 0 0 ⟨1, none, []⟩ ⟨1, none, []⟩ 0 3 1
    ⟨[⟨1, none, [0]⟩, ⟨3, some 0, []⟩], [⟨1, 0, 0, 0, 1⟩]⟩ exOppStore
    rfl rfl rfl (by decide) rfl rfl

/-- C4: after expansion of a node in state `s`, the k-th child edge
carries the k-th available action's prior over the fresh child node; a
child that is not finished has its children replaced wholesale by exactly
one synthetic edge with prior 1 whose child is the opponent's reply to
it, while a finished child is left with no such synthetic edge. -/
theorem expand_fold_spec {σ π : Type} (g : Game σ π) (opp : σ → TNode σ)
    (s : σ) (k : ℕ) (sk : σ) (pk : ℚ)
    (hk : (g.avail s)[k]? = some (sk, pk)) :
    (foldChildren g opp (expandChildren g s))[k]? =
      some (⟨pk, 0, 0⟩,
            if g.isFinish sk then TNode.mk sk []
            else TNode.mk sk [(⟨1, 0, 0⟩, opp sk)]) := by
  simp only [foldChildren, expandChildren, List.map_map, List.getElem?_map, hk]
  by_cases hf : g.isFinish sk <;> simp [hf, TNode.state]

/-- C4 witness: the first move of the example game leads to the
non-finished state 1, which receives the single prior-1 edge to the
opponent's reply node. -/
theorem expand_fold_spec_witness :
    (foldChildren exGame exOpp (expandChildren exGame 0))[0]? =
      some (⟨1, 0, 0⟩,
            if exGame.isFinish 1 then TNode.mk 1 []
            else TNode.mk 1 [(⟨1, 0, 0⟩, exOpp 1)]) :=
  expand_fold_spec exGame exOpp 0 0 1 1 rfl


/-- One bump changes the statistics of exactly the edge at the bumped
position and no other edge. -/
theorem edgeAt_bumpAt {σ : Type} (t : PNode σ) (p q : List ℕ) (r : ℚ) :
    (t.bumpAt p r).edgeAt q =
      if p = q then (t.edgeAt q).map (bump r) else t.edgeAt q := by
  induction q generalizing p t with
  | nil =>
    cases t with
    | mk s e cs =>
      rcases p with _ | ⟨i, ps⟩
      · simp [PNode.bumpAt, PNode.edgeAt]
      · simp [PNode.bumpAt, PNode.edgeAt]
  | cons j q ih =>
    rcases p with _ | ⟨i, ps⟩
    · simp [PNode.bumpAt]
    · cases t with
      | mk s e cs =>
        by_cases hij : i = j
        · subst hij
          simp only [PNode.bumpAt, PNode.edgeAt]
          rw [listModify_get_eq]
          cases hcs : cs[i]? with
          | none =>
            cases ps <;> cases q <;> simp
          | some ec =>
            cases ps with
            | nil =>
              cases q with
              | nil => simp
              | cons j2 q2 => simp
            | cons i2 ps2 =>
              cases q with
              | nil => simp
              | cons j2 q2 =>
                by_cases ht : i2 :: ps2 = j2 :: q2
                · simp only [ht]
                  simpa using ih ec.2 (j2 :: q2)
                · have hne2 : (i :: i2 :: ps2) ≠ (i :: j2 :: q2) := by
                    intro hcon
                    injection hcon with h1 h2
                    exact ht h2
                  rw [if_neg hne2]
                  have hih := ih ec.2 (i2 :: ps2)
                  rw [if_neg ht] at hih
                  simpa using hih
        · simp only [PNode.bumpAt, PNode.edgeAt]
          rw [listModify_get_ne _ cs hij]
          have hne : (i :: ps) ≠ (j :: q) := by
            intro hcon
            injection hcon with h1 h2
            exact hij h1
          simp [hne]

/-- A bump changes no node's state, `parent_edge` field, or number of
children: `TreeEdge.update` touches edge statistics only. -/
theorem nodeAt_bumpAt_proj {σ : Type} (t : PNode σ) (p q : List ℕ) (r : ℚ) :
    ((t.bumpAt p r).nodeAt q).map (fun n => (n.state, n.pe, n.children.length)) =
      (t.nodeAt q).map (fun n => (n.state, n.pe, n.children.length)) := by
  induction q generalizing p t with
  | nil =>
    cases t with
    | mk s e cs =>
      rcases p with _ | ⟨i, ps⟩
      · rfl
      · simp [PNode.bumpAt, PNode.nodeAt, PNode.state, PNode.pe, PNode.children,
          listModify_length]
  | cons j q ih =>
    rcases p with _ | ⟨i, ps⟩
    · simp [PNode.bumpAt]
    · cases t with
      | mk s e cs =>
        by_cases hij : i = j
        · subst hij
          simp only [PNode.bumpAt, PNode.nodeAt]
          rw [listModify_get_eq]
          cases hcs : cs[i]? with
          | none => simp
          | some ec =>
            cases ps with
            | nil => simp
            | cons i2 ps2 => simpa using ih ec.2 (i2 :: ps2)
        · simp only [PNode.bumpAt, PNode.nodeAt]
          rw [listModify_get_ne _ cs hij]

theorem nodeAt_bumpAt_none {σ : Type} (t : PNode σ) (p q : List ℕ) (r : ℚ)
    (h : t.nodeAt q = Option.none) : (t.bumpAt p r).nodeAt q = Option.none := by
  have hproj := nodeAt_bumpAt_proj t p q r
  rw [h] at hproj
  cases h2 : (t.bumpAt p r).nodeAt q with
  | none => rfl
  | some n2 =>
    rw [h2] at hproj
    exact Option.noConfusion hproj

theorem nodeAt_bumpAt_some {σ : Type} (t : PNode σ) (p q : List ℕ) (r : ℚ)
    (n : PNode σ) (h : t.nodeAt q = some n) :
    ∃ n2, (t.bumpAt p r).nodeAt q = some n2 ∧ n2.state = n.state ∧ n2.pe = n.pe
      ∧ n2.children.length = n.children.length := by
  have hproj := nodeAt_bumpAt_proj t p q r
  rw [h] at hproj
  cases h2 : (t.bumpAt p r).nodeAt q with
  | none =>
    rw [h2] at hproj
    exact Option.noConfusion hproj
  | some n2 =>
    rw [h2] at hproj
    have h3 : (n2.state, n2.pe, n2.children.length) =
        (n.state, n.pe, n.children.length) := by
      injection hproj
    rw [Prod.mk.injEq, Prod.mk.injEq] at h3
    exact ⟨n2, rfl, h3.1, h3.2.1, h3.2.2⟩

/-- A successful update walk starts at the edge it was called on. -/
theorem updChain_head {σ : Type} (fuel : ℕ) (t : PNode σ) (p : List ℕ)
    (ch : List (List ℕ)) (h : updChain fuel t p = some ch) :
    ∃ tail, ch = p :: tail := by
  cases fuel with
  | zero => simp [updChain] at h
  | succ fuel =>
    simp only [updChain] at h
    cases hn : t.nodeAt p.dropLast with
    | none => simp [hn] at h
    | some n =>
      simp only [hn] at h
      cases hpe : n.pe with
      | none =>
        simp only [hpe] at h
        exact ⟨[], by injection h with h2; exact h2.symm⟩
      | tree r2 =>
        simp only [hpe] at h
        cases hc2 : updChain fuel t r2 with
        | none => simp [hc2] at h
        | some ch2 =>
          rw [hc2] at h
          simp at h
          exact ⟨ch2, h.symm⟩
      | ext k =>
        simp only [hpe] at h
        exact ⟨[], by injection h with h2; exact h2.symm⟩

/-- The update walk reads only `parent_edge` fields, which bumps do not
change, so the chain is insensitive to bumping. -/
theorem updChain_bumpAt {σ : Type} (fuel : ℕ) (t : PNode σ) (p0 p : List ℕ)
    (r : ℚ) : updChain fuel (t.bumpAt p0 r) p = updChain fuel t p := by
  induction fuel generalizing p with
  | zero => rfl
  | succ fuel ih =>
    simp only [updChain]
    cases hn : t.nodeAt p.dropLast with
    | none =>
      rw [nodeAt_bumpAt_none t p0 p.dropLast r hn]
    | some n =>
      obtain ⟨n2, h2, _, hpe, _⟩ := nodeAt_bumpAt_some t p0 p.dropLast r n hn
      simp only [h2, hpe]
      cases n.pe with
      | none => rfl
      | tree r2 => simp only [ih]
      | ext k => rfl

/-- `TreeEdge.update` equals bumping, in order, every edge on the chain
the `parent_edge` fields trace out. -/
theorem updateObj_eq {σ : Type} (fuel : ℕ) (t : PNode σ) (p : List ℕ) (r : ℚ) :
    updateObj fuel t p r =
      (updChain fuel t p).map (fun ch => ch.foldl (fun tt q => tt.bumpAt q r) t) := by
  induction fuel generalizing t p with
  | zero => rfl
  | succ fuel ih =>
    simp only [updateObj, updChain]
    cases hn : t.nodeAt p.dropLast with
    | none =>
      rw [nodeAt_bumpAt_none t p p.dropLast r hn]
      rfl
    | some n =>
      obtain ⟨n2, h2, _, hpe, _⟩ := nodeAt_bumpAt_some t p p.dropLast r n hn
      simp only [h2, hpe]
      cases n.pe with
      | none => simp
      | ext k => simp
      | tree r2 =>
        simp only [ih, updChain_bumpAt]
        cases updChain fuel t r2 with
        | none => rfl
        | some ch2 => simp

/-- A completed update walk is independent of any surplus fuel. -/
theorem updChain_mono {σ : Type} (fuel fuel2 : ℕ) (t : PNode σ) (p : List ℕ)
    (ch : List (List ℕ)) (h : updChain fuel t p = some ch) (hle : fuel ≤ fuel2) :
    updChain fuel2 t p = some ch := by
  induction fuel generalizing p ch fuel2 with
  | zero => simp [updChain] at h
  | succ fuel ih =>
    cases fuel2 with
    | zero => omega
    | succ fuel2 =>
      simp only [updChain] at h ⊢
      cases hn : t.nodeAt p.dropLast with
      | none => simp [hn] at h
      | some n =>
        simp only [hn] at h ⊢
        cases hpe : n.pe with
        | none => simpa [hpe] using h
        | ext k => simpa [hpe] using h
        | tree r2 =>
          simp only [hpe] at h ⊢
          cases hc2 : updChain fuel t r2 with
          | none => simp [hc2] at h
          | some ch2 =>
            rw [hc2] at h
            rw [ih fuel2 r2 ch2 hc2 (by omega)]
            simpa using h

/-- Dropping the first `j` steps of a completed update walk leaves the
completed walk from its `j`-th edge, with `j` units of fuel spent. -/
theorem updChain_drop {σ : Type} (fuel : ℕ) (t : PNode σ) (p : List ℕ)
    (ch : List (List ℕ)) (h : updChain fuel t p = some ch) :
    ∀ j, (hj : j < ch.length) → updChain (fuel - j) t ch[j] = some (ch.drop j) := by
  induction fuel generalizing p ch with
  | zero => simp [updChain] at h
  | succ fuel ih =>
    intro j hj
    obtain ⟨tail, rfl⟩ := updChain_head _ _ _ _ h
    cases j with
    | zero => simpa using h
    | succ j =>
      simp only [updChain] at h
      cases hn : t.nodeAt p.dropLast with
      | none => simp [hn] at h
      | some n =>
        simp only [hn] at h
        cases hpe : n.pe with
        | none =>
          simp only [hpe, Option.some.injEq, List.cons.injEq, eq_self_iff_true,
            true_and] at h
          rw [← h] at hj
          simp at hj
        | ext k =>
          simp only [hpe, Option.some.injEq, List.cons.injEq, eq_self_iff_true,
            true_and] at h
          rw [← h] at hj
          simp at hj
        | tree r2 =>
          simp only [hpe] at h
          cases hc2 : updChain fuel t r2 with
          | none => simp [hc2] at h
          | some ch2 =>
            rw [hc2] at h
            simp only [Option.map_some', Option.some.injEq, List.cons.injEq,
              eq_self_iff_true, true_and] at h
            subst h
            have hrec := ih r2 ch2 hc2 j (by simpa using hj)
            have harith : fuel + 1 - (j + 1) = fuel - j := by omega
            rw [harith]
            simpa using hrec

/-- Two completed update walks from the same edge are the same walk. -/
theorem updChain_unique {σ : Type} (f1 f2 : ℕ) (t : PNode σ) (p : List ℕ)
    (ch1 ch2 : List (List ℕ)) (h1 : updChain f1 t p = some ch1)
    (h2 : updChain f2 t p = some ch2) : ch1 = ch2 := by
  have e1 := updChain_mono f1 (max f1 f2) t p ch1 h1 (le_max_left _ _)
  have e2 := updChain_mono f2 (max f1 f2) t p ch2 h2 (le_max_right _ _)
  rw [e1] at e2
  injection e2

/-- A completed update walk never revisits an edge: the next edge is a
function of the current one, so a revisit would make the walk periodic
and it could not have completed. -/
theorem updChain_nodup {σ : Type} (fuel : ℕ) (t : PNode σ) (p : List ℕ)
    (ch : List (List ℕ)) (h : updChain fuel t p = some ch) : ch.Nodup := by
  rw [List.nodup_iff_injective_getElem]
  intro a b hab
  simp only at hab
  have ha := updChain_drop fuel t p ch h a.1 a.2
  have hb := updChain_drop fuel t p ch h b.1 b.2
  rw [hab] at ha
  have hdd := updChain_unique _ _ _ _ _ _ ha hb
  have hlen := congrArg List.length hdd
  simp only [List.length_drop] at hlen
  have h1 := a.2
  have h2 := b.2
  exact Fin.ext (by omega)

/-- Bumping every edge of a duplicate-free chain once bumps exactly the
chain's edges, each exactly once. -/
theorem edgeAt_foldBump {σ : Type} (ch : List (List ℕ)) (t : PNode σ)
    (q : List ℕ) (r : ℚ) (hnd : ch.Nodup) :
    (ch.foldl (fun tt q2 => tt.bumpAt q2 r) t).edgeAt q =
      if q ∈ ch then (t.edgeAt q).map (bump r) else t.edgeAt q := by
  induction ch generalizing t with
  | nil => simp
  | cons q0 ch ih =>
    simp only [List.foldl_cons]
    obtain ⟨hq0, hnd2⟩ := List.nodup_cons.mp hnd
    rw [ih _ hnd2]
    by_cases hq : q ∈ ch
    · have hne : q0 ≠ q := fun hcon => hq0 (hcon ▸ hq)
      rw [edgeAt_bumpAt, if_neg hne]
      simp [hq]
    · by_cases hq0q : q0 = q
      · subst hq0q
        rw [edgeAt_bumpAt, if_pos rfl]
        simp [hq]
      · rw [edgeAt_bumpAt, if_neg hq0q]
        have : q ∉ q0 :: ch := by
          simp [hq]
          exact fun hcon => hq0q hcon.symm
        simp [hq, this]

/-- Bumping a chain of edges changes no node's state, `parent_edge`
field, or number of children. -/
theorem nodeAt_foldBump_proj {σ : Type} (ch : List (List ℕ)) (t : PNode σ)
    (q : List ℕ) (r : ℚ) :
    ((ch.foldl (fun tt q2 => tt.bumpAt q2 r) t).nodeAt q).map
        (fun n => (n.state, n.pe, n.children.length)) =
      (t.nodeAt q).map (fun n => (n.state, n.pe, n.children.length)) := by
  induction ch generalizing t with
  | nil => rfl
  | cons q0 ch ih =>
    simp only [List.foldl_cons]
    rw [ih, nodeAt_bumpAt_proj]

/-- What one completed `TreeEdge.update` call does to the persisted tree:
it bumps, exactly once each, precisely the edges of the duplicate-free
chain the `parent_edge` fields trace out from the called edge, leaves
every other edge's statistics unchanged, and changes no node's state,
`parent_edge` field, or number of children. -/
theorem updateObj_frame {σ : Type} (updFuel : ℕ) (t0 : PNode σ) (pp : List ℕ)
    (r : ℚ) (t2 : PNode σ) (ht2 : updateObj updFuel t0 pp r = some t2) :
    ∃ ch, updChain updFuel t0 pp = some ch
      ∧ ch.Nodup
      ∧ ch.head? = some pp
      ∧ (∀ q, q ∈ ch → t2.edgeAt q = (t0.edgeAt q).map (bump r))
      ∧ (∀ q, q ∉ ch → t2.edgeAt q = t0.edgeAt q)
      ∧ (∀ q, (t2.nodeAt q).map (fun n => (n.state, n.pe, n.children.length)) =
          (t0.nodeAt q).map (fun n => (n.state, n.pe, n.children.length))) := by
  rw [updateObj_eq] at ht2
  cases hch : updChain updFuel t0 pp with
  | none =>
    rw [hch] at ht2
    exact Option.noConfusion ht2
  | some ch =>
    rw [hch] at ht2
    simp only [Option.map_some', Option.some.injEq] at ht2
    obtain ⟨tail, htail⟩ := updChain_head _ _ _ _ hch
    have hnd := updChain_nodup _ _ _ _ hch
    refine ⟨ch, rfl, hnd, ?_, ?_, ?_, ?_⟩
    · rw [htail]
      rfl
    · intro q hq
      rw [← ht2, edgeAt_foldBump _ _ _ _ hnd, if_pos hq]
    · intro q hq
      rw [← ht2, edgeAt_foldBump _ _ _ _ hnd, if_neg hq]
    · intro q
      rw [← ht2]
      exact nodeAt_foldBump_proj ch t0 q r

/-- C5: when the selection walk reaches a finished node, the training
iteration performs no expansion and line 171 decides on the node's own
`parent_edge` field.  If it is `None` the iteration ends with the tree
unchanged; if it holds an edge object outside the persisted tree the one
`update` call mutates only that external object and the persisted tree is
again unchanged; if it holds the persisted edge at position `r`, that
edge receives exactly one `update` with `reward(player = node_turn)`,
whose whole effect is the single pointer-chain walk from `r` (the chain's
head, `r` itself, is bumped exactly once; edges off the chain and all
node shapes are untouched), and then the iteration ends. -/
theorem fit_terminal {σ π : Type} (g : Game σ π) (opp : σ → PNode σ)
    (selPicks rollPicks : ℕ → ℕ) (actPick fuel updFuel : ℕ)
    (t sel : PNode σ) (p : List ℕ) (rw0 : ℚ)
    (hp : p = PNode.selectWalk selPicks 0 t)
    (hsel : t.nodeAt p = some sel)
    (hfin : g.isFinish sel.state = true)
    (hrw : rw0 = g.reward sel.state (g.nodeTurn sel.state)) :
    (sel.pe = PEdge.none →
        mctsFitP g opp selPicks actPick rollPicks fuel updFuel t = some t)
    ∧ (∀ k, sel.pe = PEdge.ext k →
        mctsFitP g opp selPicks actPick rollPicks fuel updFuel t = some t)
    ∧ (∀ r, sel.pe = PEdge.tree r →
        (mctsFitP g opp selPicks actPick rollPicks fuel updFuel t =
          updateObj updFuel t r rw0)
        ∧ ∀ t2, updateObj updFuel t r rw0 = some t2 →
            ∃ ch, updChain updFuel t r = some ch
              ∧ ch.Nodup
              ∧ ch.head? = some r
              ∧ (∀ q, q ∈ ch → t2.edgeAt q = (t.edgeAt q).map (bump rw0))
              ∧ (∀ q, q ∉ ch → t2.edgeAt q = t.edgeAt q)
              ∧ (∀ q, (t2.nodeAt q).map (fun n => (n.state, n.pe, n.children.length)) =
                  (t.nodeAt q).map (fun n => (n.state, n.pe, n.children.length)))) := by
  subst hp hrw
  refine ⟨?_, ?_, ?_⟩
  · intro hpe
    simp only [mctsFitP]
    rw [hsel]
    simp [hfin, hpe]
  · intro k hpe
    simp only [mctsFitP]
    rw [hsel]
    simp [hfin, hpe]
  · intro r hpe
    constructor
    · simp only [mctsFitP]
      rw [hsel]
      simp [hfin, hpe]
    · intro t2 ht2
      exact updateObj_frame _ _ _ _ _ ht2

/-- C5 witness: the walk descends the one expanded edge of the example
enriched tree to the finished, properly wired state 2, whose parent-edge
field holds the tree edge at position 0. -/
theorem fit_terminal_witness :
    ((PNode.mk 2 (PEdge.tree [0]) [] : PNode ℕ).pe = PEdge.none →
        mctsFitP exGame exPOpp (fun _ => 0) 0 (fun _ => 0) 1 2 exPTree =
          some exPTree)
    ∧ (∀ k, (PNode.mk 2 (PEdge.tree [0]) [] : PNode ℕ).pe = PEdge.ext k →
        mctsFitP exGame exPOpp (fun _ => 0) 0 (fun _ => 0) 1 2 exPTree =
          some exPTree)
    ∧ (∀ r, (PNode.mk 2 (PEdge.tree [0]) [] : PNode ℕ).pe = PEdge.tree r →
        (mctsFitP exGame exPOpp (fun _ => 0) 0 (fun _ => 0) 1 2 exPTree =
          updateObj 2 exPTree r 1)
        ∧ ∀ t2, updateObj 2 exPTree r 1 = some t2 →
            ∃ ch, updChain 2 exPTree r = some ch
              ∧ ch.Nodup
              ∧ ch.head? = some r
              ∧ (∀ q, q ∈ ch → t2.edgeAt q = (exPTree.edgeAt q).map (bump 1))
              ∧ (∀ q, q ∉ ch → t2.edgeAt q = exPTree.edgeAt q)
              ∧ (∀ q, (t2.nodeAt q).map (fun n => (n.state, n.pe, n.children.length)) =
                  (exPTree.nodeAt q).map (fun n => (n.state, n.pe, n.children.length)))) :=
  fit_terminal exGame exPOpp (fun _ => 0) (fun _ => 0) 0 1 2 exPTree
    (PNode.mk 2 (PEdge.tree [0]) []) [0] 1
    (by simp [PNode.selectWalk, exPTree]) rfl rfl rfl

/-- C7: in a training iteration that expands, the whole roll-out operates
on the (value-semantics image of the deep-copied) child of the selected
action edge and contributes only the final state `fs`; the persisted tree
resulting from the iteration is exactly the post-expansion tree with the
single line-204 `update` call on the selected action edge at position
`p ++ [i]`.  That call's whole effect is the duplicate-free pointer chain
from `p ++ [i]`: the selected action edge is bumped exactly once, every
edge off the chain keeps its statistics, and no node's state,
`parent_edge` field, or number of children changes — in particular, when
the expanded node is an unwired opponent reply, the chain is just
`[p ++ [i]]` and nothing above it is bumped. -/
theorem fit_rollout_frame {σ π : Type} (g : Game σ π) (opp : σ → PNode σ)
    (selPicks rollPicks : ℕ → ℕ) (actPick fuel updFuel : ℕ)
    (t sel ex folded : PNode σ) (p : List ℕ) (i : ℕ) (ca : EdgeData × PNode σ)
    (fs : σ) (rw0 : ℚ)
    (hp : p = PNode.selectWalk selPicks 0 t)
    (hsel : t.nodeAt p = some sel)
    (hfin : g.isFinish sel.state = false)
    (hex : expandNodeP g p sel = some ex)
    (hfold : folded = PNode.mk ex.state ex.pe (foldChildrenP g opp ex.children))
    (hne : folded.children ≠ [])
    (hi : i = actPick % folded.children.length)
    (hca : folded.children[i]? = some ca)
    (hroll : rolloutLoopP g opp rollPicks fuel ca.2 true true 0 = some fs)
    (hrw : rw0 = g.reward fs (g.nodeTurn sel.state)) :
    (mctsFitP g opp selPicks actPick rollPicks fuel updFuel t =
      updateObj updFuel (t.replaceAt p folded) (p ++ [i]) rw0)
    ∧ ∀ t2, updateObj updFuel (t.replaceAt p folded) (p ++ [i]) rw0 = some t2 →
        ∃ ch, updChain updFuel (t.replaceAt p folded) (p ++ [i]) = some ch
          ∧ ch.Nodup
          ∧ ch.head? = some (p ++ [i])
          ∧ (∀ q, q ∈ ch →
              t2.edgeAt q = ((t.replaceAt p folded).edgeAt q).map (bump rw0))
          ∧ (∀ q, q ∉ ch → t2.edgeAt q = (t.replaceAt p folded).edgeAt q)
          ∧ (∀ q, (t2.nodeAt q).map (fun n => (n.state, n.pe, n.children.length)) =
              ((t.replaceAt p folded).nodeAt q).map
                (fun n => (n.state, n.pe, n.children.length))) := by
  subst hp hrw hfold hi
  refine ⟨?_, fun t2 ht2 => updateObj_frame _ _ _ _ _ ht2⟩
  cases ex with
  | mk exs expe excs =>
    simp only [PNode.children, PNode.state, PNode.pe] at hne hca hroll ⊢
    rcases hL : foldChildrenP g opp excs with _ | ⟨c, cs⟩
    · rw [hL] at hne
      exact absurd rfl hne
    · rw [hL] at hca
      have hgetD : (c :: cs).getD (actPick % (c :: cs).length) c = ca := by
        rw [List.getD_eq_getElem?_getD, hca]
        rfl
      simp only [mctsFitP]
      rw [hsel]
      simp only [hfin, Bool.false_eq_true, if_false]
      rw [hex]
      simp only [PNode.children, PNode.state, PNode.pe]
      rw [hL]
      simp only [hgetD, hroll, hL]

/-- C7 witness: one full expanding iteration from an unexpanded enriched
root in the example game; the uniformly drawn second action leads to the
finished state 2 and only that action edge is updated. -/
theorem fit_rollout_frame_witness :
    (mctsFitP exGame exPOpp (fun _ => 0) 1 (fun _ => 0) 1 2 (PNode.mk 0 PEdge.none []) =
      updateObj 2 ((PNode.mk 0 PEdge.none [] : PNode ℕ).replaceAt []
          (PNode.mk 0 PEdge.none
            (foldChildrenP exGame exPOpp (expandChildrenGo [] 0 (exGame.avail 0)))))
        ([] ++ [1]) 1)
    ∧ ∀ t2, updateObj 2 ((PNode.mk 0 PEdge.none [] : PNode ℕ).replaceAt []
          (PNode.mk 0 PEdge.none
            (foldChildrenP exGame exPOpp (expandChildrenGo [] 0 (exGame.avail 0)))))
        ([] ++ [1]) 1 = some t2 →
        ∃ ch, updChain 2 ((PNode.mk 0 PEdge.none [] : PNode ℕ).replaceAt []
            (PNode.mk 0 PEdge.none
              (foldChildrenP exGame exPOpp (expandChildrenGo [] 0 (exGame.avail 0)))))
          ([] ++ [1]) = some ch
          ∧ ch.Nodup
          ∧ ch.head? = some ([] ++ [1])
          ∧ (∀ q, q ∈ ch →
              t2.edgeAt q = (((PNode.mk 0 PEdge.none [] : PNode ℕ).replaceAt []
                (PNode.mk 0 PEdge.none
                  (foldChildrenP exGame exPOpp
                    (expandChildrenGo [] 0 (exGame.avail 0))))).edgeAt q).map (bump 1))
          ∧ (∀ q, q ∉ ch →
              t2.edgeAt q = ((PNode.mk 0 PEdge.none [] : PNode ℕ).replaceAt []
                (PNode.mk 0 PEdge.none
                  (foldChildrenP exGame exPOpp
                    (expandChildrenGo [] 0 (exGame.avail 0))))).edgeAt q)
          ∧ (∀ q, (t2.nodeAt q).map (fun n => (n.state, n.pe, n.children.length)) =
              (((PNode.mk 0 PEdge.none [] : PNode ℕ).replaceAt []
                (PNode.mk 0 PEdge.none
                  (foldChildrenP exGame exPOpp
                    (expandChildrenGo [] 0 (exGame.avail 0))))).nodeAt q).map
                (fun n => (n.state, n.pe, n.children.length))) :=
  fit_rollout_frame exGame exPOpp (fun _ => 0) (fun _ => 0) 1 1 2
    (PNode.mk 0 PEdge.none []) (PNode.mk 0 PEdge.none [])
    (PNode.mk 0 PEdge.none (expandChildrenGo [] 0 (exGame.avail 0)))
    (PNode.mk 0 PEdge.none
      (foldChildrenP exGame exPOpp (expandChildrenGo [] 0 (exGame.avail 0))))
    [] 1 (⟨2, 0, 0⟩, PNode.mk 2 (PEdge.tree [1]) []) 2 1
    (by simp [PNode.selectWalk]) rfl rfl rfl rfl
    (by simp [PNode.children, foldChildrenP, expandChildrenGo, exGame])
    rfl rfl rfl rfl
